import Mathlib

/-!
Shallow embedding of the summarization-and-digest pipeline of
`src/telegram_digest.py`, together with theorems settling the frozen claims
about it.

Python strings are modelled as Lean `String` (a wrapper around `List Char`,
matching Python's sequence-of-code-points view).  Python integers are `Int`
(`Nat` where the source only ever sees non-negative values).  The remote
summarization call, which can fail, is modelled as an oracle
`String → Except String String` passed in explicitly; the `api_key`
environment value is an `Option String` (with Python truthiness: `None` and
`""` both disable the remote tier).
-/

namespace TelegramDigest

/-- Whitespace as used by Python's `str.strip()` and the regex class `\s`
(the ASCII whitespace characters plus the common Unicode spaces that can
occur in Telegram text). -/
def isWS (c : Char) : Bool :=
  c = ' ' || c = '\t' || c = '\n' || c = '\r' || c = '\u000B' || c = '\u000C' ||
    c = ' ' || c = '　'

/-- Drop the maximal trailing run of characters satisfying `p`
(the right half of Python's `str.strip`). -/
def dropTrailing (p : Char → Bool) : List Char → List Char
  | [] => []
  | c :: rest =>
    let r := dropTrailing p rest
    if r.isEmpty && p c then [] else c :: r

/-- Python's `str.strip(chars)`: drop leading and trailing characters
satisfying `p`. -/
def stripChars (p : Char → Bool) (l : List Char) : List Char :=
  dropTrailing p (l.dropWhile p)

/-- Embedding of `re.sub(r"\s+", " ", ·)`: replace every maximal run of whitespace with a
single space.  `prev` records whether the previous character was part of a
whitespace run already replaced. -/
def collapseWS (prev : Bool) : List Char → List Char
  | [] => []
  | c :: rest =>
    if isWS c then
      if prev then collapseWS true rest else ' ' :: collapseWS true rest
    else c :: collapseWS false rest

/-- Function `normalize_text` from `src/telegram_digest.py`:
`re.sub(r"\s+", " ", (text or "").strip())`.  (`text or ""` only converts a
Python `None` to `""`; inputs here are always strings.) -/
def normalize_text (s : String) : String :=
  String.mk (collapseWS false (stripChars isWS s.data))

/-- The relation "these two adjacent characters are not both whitespace". -/
def noTwoWS (a b : Char) : Prop := ¬(isWS a = true ∧ isWS b = true)

lemma collapseWS_cons_ws_true (a : Char) (rest : List Char) (ha : isWS a = true) :
    collapseWS true (a :: rest) = collapseWS true rest := by
  rw [collapseWS]; simp [ha]

lemma collapseWS_cons_ws_false (a : Char) (rest : List Char) (ha : isWS a = true) :
    collapseWS false (a :: rest) = ' ' :: collapseWS true rest := by
  rw [collapseWS]; simp [ha]

lemma collapseWS_cons_nws (prev : Bool) (a : Char) (rest : List Char) (ha : isWS a = false) :
    collapseWS prev (a :: rest) = a :: collapseWS false rest := by
  rw [collapseWS]; simp [ha]

lemma head_collapse_true (l : List Char) :
    ∀ c, (collapseWS true l).head? = some c → isWS c = false := by
  induction l with
  | nil => intro c h; simp [collapseWS] at h
  | cons a rest ih =>
    intro c h
    cases ha : isWS a with
    | true => rw [collapseWS_cons_ws_true a rest ha] at h; exact ih c h
    | false =>
      rw [collapseWS_cons_nws true a rest ha] at h
      simp at h
      rw [← h]; exact ha

lemma chain_collapse (l : List Char) :
    ∀ prev, List.Chain' noTwoWS (collapseWS prev l) := by
  induction l with
  | nil => intro prev; simp [collapseWS]
  | cons a rest ih =>
    intro prev
    cases ha : isWS a with
    | true =>
      cases prev with
      | true => rw [collapseWS_cons_ws_true a rest ha]; exact ih true
      | false =>
        rw [collapseWS_cons_ws_false a rest ha]
        refine List.chain'_cons'.mpr ⟨?_, ih true⟩
        intro b hb
        have hbws := head_collapse_true rest b hb
        exact fun hcontra => by simp [hbws] at hcontra
    | false =>
      rw [collapseWS_cons_nws prev a rest ha]
      refine List.chain'_cons'.mpr ⟨?_, ih false⟩
      intro b _
      exact fun hcontra => by simp [ha] at hcontra

lemma mem_collapse_ws_eq_space (l : List Char) :
    ∀ prev c, c ∈ collapseWS prev l → isWS c = true → c = ' ' := by
  induction l with
  | nil => intro prev c h; simp [collapseWS] at h
  | cons a rest ih =>
    intro prev c h hws
    cases ha : isWS a with
    | true =>
      cases prev with
      | true =>
        rw [collapseWS_cons_ws_true a rest ha] at h
        exact ih true c h hws
      | false =>
        rw [collapseWS_cons_ws_false a rest ha, List.mem_cons] at h
        cases h with
        | inl h => exact h
        | inr h => exact ih true c h hws
    | false =>
      rw [collapseWS_cons_nws prev a rest ha, List.mem_cons] at h
      cases h with
      | inl h => rw [h] at hws; rw [hws] at ha; cases ha
      | inr h => exact ih false c h hws

lemma mem_collapse (l : List Char) :
    ∀ prev c, c ∈ collapseWS prev l → c ∈ l ∨ c = ' ' := by
  induction l with
  | nil => intro prev c h; simp [collapseWS] at h
  | cons a rest ih =>
    intro prev c h
    cases ha : isWS a with
    | true =>
      cases prev with
      | true =>
        rw [collapseWS_cons_ws_true a rest ha] at h
        rcases ih true c h with h' | h'
        · exact Or.inl (List.mem_cons_of_mem a h')
        · exact Or.inr h'
      | false =>
        rw [collapseWS_cons_ws_false a rest ha, List.mem_cons] at h
        cases h with
        | inl h => exact Or.inr h
        | inr h =>
          rcases ih true c h with h' | h'
          · exact Or.inl (List.mem_cons_of_mem a h')
          · exact Or.inr h'
    | false =>
      rw [collapseWS_cons_nws prev a rest ha, List.mem_cons] at h
      cases h with
      | inl h => exact Or.inl (by rw [h]; exact List.mem_cons_self a rest)
      | inr h =>
        rcases ih false c h with h' | h'
        · exact Or.inl (List.mem_cons_of_mem a h')
        · exact Or.inr h'

lemma getLast?_cons_of_ne_nil {α : Type} (x : α) (l : List α) (h : l ≠ []) :
    (x :: l).getLast? = l.getLast? := by
  cases l with
  | nil => exact absurd rfl h
  | cons y t => exact List.getLast?_cons_cons

lemma getLast_collapse (l : List Char) :
    ∀ prev c, l.getLast? = some c → isWS c = false →
      (collapseWS prev l).getLast? = some c := by
  induction l with
  | nil => intro prev c h; simp at h
  | cons a rest ih =>
    intro prev c h hws
    cases rest with
    | nil =>
      simp at h
      subst h
      rw [collapseWS_cons_nws prev a [] hws]
      simp [collapseWS]
    | cons b t =>
      rw [List.getLast?_cons_cons] at h
      have hne : (collapseWS true (b :: t)).getLast? = some c := ih true c h hws
      have hne' : (collapseWS false (b :: t)).getLast? = some c := ih false c h hws
      have hnn : collapseWS true (b :: t) ≠ [] := by
        intro h0; rw [h0] at hne; simp at hne
      have hnn' : collapseWS false (b :: t) ≠ [] := by
        intro h0; rw [h0] at hne'; simp at hne'
      cases ha : isWS a with
      | true =>
        cases prev with
        | true => rw [collapseWS_cons_ws_true a _ ha]; exact hne
        | false =>
          rw [collapseWS_cons_ws_false a _ ha]
          rw [getLast?_cons_of_ne_nil _ _ hnn]
          exact hne
      | false =>
        rw [collapseWS_cons_nws prev a _ ha]
        rw [getLast?_cons_of_ne_nil _ _ hnn']
        exact hne'

lemma head_dropWhile (p : Char → Bool) (l : List Char) :
    ∀ c, (l.dropWhile p).head? = some c → p c = false := by
  induction l with
  | nil => intro c h; simp at h
  | cons a rest ih =>
    intro c h
    rw [List.dropWhile_cons] at h
    by_cases hp : p a = true
    · rw [if_pos hp] at h; exact ih c h
    · rw [if_neg hp] at h
      simp at h
      rw [← h]
      exact Bool.eq_false_iff.mpr hp

lemma mem_dropWhile (p : Char → Bool) (l : List Char) :
    ∀ c, c ∈ l.dropWhile p → c ∈ l := by
  induction l with
  | nil => intro c h; simp at h
  | cons a rest ih =>
    intro c h
    rw [List.dropWhile_cons] at h
    by_cases hp : p a = true
    · rw [if_pos hp] at h; exact List.mem_cons_of_mem a (ih c h)
    · rw [if_neg hp] at h; exact h

lemma dropWhile_eq_self_of_head (p : Char → Bool) (l : List Char)
    (h : ∀ c, l.head? = some c → p c = false) : l.dropWhile p = l := by
  cases l with
  | nil => rfl
  | cons a rest =>
    rw [List.dropWhile_cons, if_neg]
    simp [h a rfl]

lemma dropTrailing_getLast (p : Char → Bool) (l : List Char) :
    ∀ c, (dropTrailing p l).getLast? = some c → p c = false := by
  induction l with
  | nil => intro c h; simp [dropTrailing] at h
  | cons a rest ih =>
    intro c h
    rw [dropTrailing] at h
    by_cases hcond : (dropTrailing p rest).isEmpty && p a
    · simp only [hcond, if_true] at h; simp at h
    · simp only [hcond, Bool.false_eq_true, if_false] at h
      cases hr : dropTrailing p rest with
      | nil =>
        rw [hr] at h hcond
        simp at h hcond
        subst h
        simpa using hcond
      | cons b t =>
        rw [hr] at h
        rw [getLast?_cons_of_ne_nil _ _ (by simp)] at h
        rw [← hr] at h
        exact ih c h

lemma dropTrailing_head (p : Char → Bool) (l : List Char) :
    ∀ c, (dropTrailing p l).head? = some c → l.head? = some c := by
  cases l with
  | nil => intro c h; simp [dropTrailing] at h
  | cons a rest =>
    intro c h
    rw [dropTrailing] at h
    by_cases hcond : (dropTrailing p rest).isEmpty && p a
    · simp only [hcond, if_true] at h; simp at h
    · simp only [hcond, Bool.false_eq_true, if_false] at h
      simpa using h

lemma mem_dropTrailing (p : Char → Bool) (l : List Char) :
    ∀ c, c ∈ dropTrailing p l → c ∈ l := by
  induction l with
  | nil => intro c h; simp [dropTrailing] at h
  | cons a rest ih =>
    intro c h
    rw [dropTrailing] at h
    by_cases hcond : (dropTrailing p rest).isEmpty && p a
    · simp only [hcond, if_true] at h; simp at h
    · simp only [hcond, Bool.false_eq_true, if_false, List.mem_cons] at h
      cases h with
      | inl h => rw [h]; exact List.mem_cons_self a rest
      | inr h => exact List.mem_cons_of_mem a (ih c h)

lemma dropTrailing_eq_self (p : Char → Bool) (l : List Char)
    (h : ∀ c, l.getLast? = some c → p c = false) : dropTrailing p l = l := by
  induction l with
  | nil => rfl
  | cons a rest ih =>
    cases rest with
    | nil =>
      have := h a (by simp)
      rw [dropTrailing]
      simp [dropTrailing, this]
    | cons b t =>
      have hrest : dropTrailing p (b :: t) = b :: t := by
        apply ih
        intro c hc
        apply h
        rw [getLast?_cons_of_ne_nil _ _ (by simp)]
        exact hc
      rw [dropTrailing, hrest]
      simp

lemma collapse_eq_self (l : List Char)
    (hch : List.Chain' noTwoWS l)
    (hsp : ∀ c ∈ l, isWS c = true → c = ' ') :
    collapseWS false l = l ∧
      ((∀ c, l.head? = some c → isWS c = false) → collapseWS true l = l) := by
  induction l with
  | nil => exact ⟨rfl, fun _ => rfl⟩
  | cons a rest ih =>
    have hch' : List.Chain' noTwoWS rest := (List.chain'_cons'.mp hch).2
    have hR : ∀ y, rest.head? = some y → noTwoWS a y :=
      fun y hy => (List.chain'_cons'.mp hch).1 y hy
    have hsp' : ∀ c ∈ rest, isWS c = true → c = ' ' :=
      fun c hc => hsp c (List.mem_cons_of_mem a hc)
    obtain ⟨ihf, iht⟩ := ih hch' hsp'
    constructor
    · cases ha : isWS a with
      | true =>
        have haspace : a = ' ' := hsp a (List.mem_cons_self a rest) ha
        rw [collapseWS_cons_ws_false a rest ha, haspace]
        congr 1
        apply iht
        intro c hc
        have := hR c hc
        unfold noTwoWS at this
        cases hcws : isWS c with
        | true => exact absurd ⟨ha, hcws⟩ this
        | false => rfl
      | false =>
        rw [collapseWS_cons_nws false a rest ha, ihf]
    · intro hhead
      have ha : isWS a = false := hhead a rfl
      rw [collapseWS_cons_nws true a rest ha, ihf]

lemma strmk_data (s : String) : String.mk s.data = s := by cases s; rfl

lemma exists_getLast {α : Type} (l : List α) (h : l ≠ []) :
    ∃ d, l.getLast? = some d := by
  cases l with
  | nil => exact absurd rfl h
  | cons a t => exact ⟨(a :: t).getLast (by simp), List.getLast?_eq_getLast _ _⟩

/-- The three normalization guarantees used below, established for the raw
character list produced by `normalize_text`. -/
lemma normalize_core (s : String) :
    List.Chain' noTwoWS (normalize_text s).data ∧
      (∀ c, (normalize_text s).data.head? = some c → isWS c = false) ∧
      (∀ c, (normalize_text s).data.getLast? = some c → isWS c = false) ∧
      (∀ c ∈ (normalize_text s).data, isWS c = true → c = ' ') := by
  have hdata : (normalize_text s).data = collapseWS false (stripChars isWS s.data) := rfl
  refine ⟨?_, ?_, ?_, ?_⟩
  · rw [hdata]; exact chain_collapse _ false
  · intro c h
    rw [hdata] at h
    cases hl : stripChars isWS s.data with
    | nil => rw [hl] at h; simp [collapseWS] at h
    | cons a rest =>
      have hanws : isWS a = false := by
        have : (stripChars isWS s.data).head? = some a := by rw [hl]; rfl
        have h2 := dropTrailing_head isWS _ a this
        exact head_dropWhile isWS s.data a h2
      rw [hl, collapseWS_cons_nws false a rest hanws] at h
      simp at h
      rw [← h]
      exact hanws
  · intro c h
    rw [hdata] at h
    cases hl : stripChars isWS s.data with
    | nil => rw [hl] at h; simp [collapseWS] at h
    | cons a rest =>
      obtain ⟨d, hd⟩ := exists_getLast (a :: rest) (by simp)
      have hdnws : isWS d = false := by
        apply dropTrailing_getLast isWS (s.data.dropWhile isWS) d
        rw [← hl] at hd
        exact hd
      have := getLast_collapse (a :: rest) false d hd hdnws
      rw [hl] at h
      rw [this] at h
      simp at h
      rw [← h]
      exact hdnws
  · intro c hc hws
    rw [hdata] at hc
    exact mem_collapse_ws_eq_space _ false c hc hws

lemma normalize_idem (s : String) :
    normalize_text (normalize_text s) = normalize_text s := by
  obtain ⟨hch, hhead, hlast, hsp⟩ := normalize_core s
  have h1 : (normalize_text s).data.dropWhile isWS = (normalize_text s).data := by
    apply dropWhile_eq_self_of_head
    intro c hc
    exact hhead c hc
  have h2 : stripChars isWS (normalize_text s).data = (normalize_text s).data := by
    unfold stripChars
    rw [h1]
    exact dropTrailing_eq_self isWS _ hlast
  show String.mk (collapseWS false (stripChars isWS (normalize_text s).data)) = normalize_text s
  rw [h2, (collapse_eq_self _ hch hsp).1, strmk_data]

/-- C6: for every input string, `normalize_text` output has no two
consecutive whitespace characters and no leading or trailing whitespace, and
`normalize_text` is idempotent. -/
theorem normalize_text_spec (x : String) :
    List.Chain' noTwoWS (normalize_text x).data ∧
      (∀ c, (normalize_text x).data.head? = some c → isWS c = false) ∧
      (∀ c, (normalize_text x).data.getLast? = some c → isWS c = false) ∧
      normalize_text (normalize_text x) = normalize_text x := by
  obtain ⟨hch, hhead, hlast, _⟩ := normalize_core x
  exact ⟨hch, hhead, hlast, normalize_idem x⟩

/-- Witness for `normalize_text_spec` at the concrete input `" a  b\n"`. -/
theorem normalize_text_spec_witness :
    isWS 'a' = false ∧ normalize_text (normalize_text " a  b\n") = normalize_text " a  b\n" :=
  ⟨(normalize_text_spec " a  b\n").2.1 'a' rfl, (normalize_text_spec " a  b\n").2.2.2⟩

/-- Sentence-ending punctuation of the regex class `[.!?。！？]` in
`summarize_locally`. -/
def sentPunct (c : Char) : Bool :=
  c = '.' || c = '!' || c = '?' || c = '。' || c = '！' || c = '？'

def prevPunct : Option Char → Bool
  | some p => sentPunct p
  | none => false

/-- Scanner state while splitting: `norm` = looking for the next delimiter,
`inWS` = inside a `(?<=[.!?。！？])\s+` run, `inNL` = inside a `\n+` run. -/
inductive SMode where
  | norm
  | inWS
  | inNL

/-- Character-by-character implementation of
`re.split(r"(?<=[.!?。！？])\s+|\n+", text)`: at each position the first
alternative (a maximal whitespace run right after sentence punctuation) is
tried first, then a maximal newline run; matched runs separate chunks and
are dropped.  `prev` is the previous character (for the lookbehind), `acc`
the current chunk reversed. -/
def splitGo : SMode → Option Char → List Char → List Char → List (List Char)
  | _, _, acc, [] => [acc.reverse]
  | SMode.inWS, _, acc, c :: rest =>
    if isWS c then splitGo SMode.inWS (some c) acc rest
    else splitGo SMode.norm (some c) (c :: acc) rest
  | SMode.inNL, _, acc, c :: rest =>
    if c = '\n' then splitGo SMode.inNL (some c) acc rest
    else splitGo SMode.norm (some c) (c :: acc) rest
  | SMode.norm, prev, acc, c :: rest =>
    if prevPunct prev && isWS c then acc.reverse :: splitGo SMode.inWS (some c) [] rest
    else if c = '\n' then acc.reverse :: splitGo SMode.inNL (some c) [] rest
    else splitGo SMode.norm (some c) (c :: acc) rest

/-- The source line `chunks = re.split(r"(?<=[.!?。！？])\s+|\n+", text)`. -/
def sentChunks (text : String) : List (List Char) :=
  splitGo SMode.norm none [] text.data

/-- The characters stripped by `chunk.strip(" -•")`. -/
def isBulletStripChar (c : Char) : Bool := c = ' ' || c = '-' || c = '•'

/-- The source lines `filtered = [chunk.strip(" -•") for chunk in chunks if len(chunk.strip()) > 15]`
followed by `if not filtered: filtered = [text[:240]]`. -/
def locFiltered (text : String) : List (List Char) :=
  let f := ((sentChunks text).filter
      (fun ch => 15 < (stripChars isWS ch).length)).map (stripChars isBulletStripChar)
  if f.isEmpty then [text.data.take 240] else f

/-- Python's `"\n".join(...)`. -/
def joinNL : List String → String
  | [] => ""
  | [s] => s
  | s :: t :: rest => s ++ "\n" ++ joinNL (t :: rest)

/-- Function `summarize_locally` from `src/telegram_digest.py`:
`selected = filtered[:max_sentences]` and
`return "\n".join(f"• {s[:220]}" for s in selected)`. -/
def summarize_locally (text : String) (max_sentences : Nat := 3) : String :=
  joinNL (((locFiltered text).take max_sentences).map
    (fun s => "• " ++ String.mk (s.take 220)))

lemma strdata_append (s t : String) : (s ++ t).data = s.data ++ t.data := by
  cases s; cases t; rfl

lemma mem_splitGo (l : List Char) :
    ∀ (mode : SMode) (prev : Option Char) (acc : List Char) (ch : List Char),
      ch ∈ splitGo mode prev acc l → ∀ c ∈ ch, c ∈ acc ∨ c ∈ l := by
  induction l with
  | nil =>
    intro mode prev acc ch h c hc
    cases mode <;> simp [splitGo] at h <;>
      (subst h; exact Or.inl (List.mem_reverse.mp hc))
  | cons a rest ih =>
    intro mode prev acc ch h c hc
    have shift : c ∈ (a :: acc) ∨ c ∈ rest → c ∈ acc ∨ c ∈ a :: rest := by
      rintro (h' | h')
      · rcases List.mem_cons.mp h' with h'' | h''
        · exact Or.inr (by rw [h'']; exact List.mem_cons_self a rest)
        · exact Or.inl h''
      · exact Or.inr (List.mem_cons_of_mem a h')
    have lift : c ∈ acc ∨ c ∈ rest → c ∈ acc ∨ c ∈ a :: rest := by
      rintro (h' | h')
      · exact Or.inl h'
      · exact Or.inr (List.mem_cons_of_mem a h')
    cases mode with
    | inWS =>
      rw [splitGo] at h
      by_cases hws : isWS a = true
      · rw [if_pos hws] at h
        exact lift (ih SMode.inWS (some a) acc ch h c hc)
      · rw [if_neg hws] at h
        exact shift (ih SMode.norm (some a) (a :: acc) ch h c hc)
    | inNL =>
      rw [splitGo] at h
      by_cases hnl : a = '\n'
      · rw [if_pos hnl] at h
        exact lift (ih SMode.inNL (some a) acc ch h c hc)
      · rw [if_neg hnl] at h
        exact shift (ih SMode.norm (some a) (a :: acc) ch h c hc)
    | norm =>
      rw [splitGo] at h
      by_cases hd1 : (prevPunct prev && isWS a) = true
      · rw [if_pos hd1] at h
        rcases List.mem_cons.mp h with h' | h'
        · subst h'; exact Or.inl (List.mem_reverse.mp hc)
        · rcases ih SMode.inWS (some a) [] ch h' c hc with h'' | h''
          · simp at h''
          · exact Or.inr (List.mem_cons_of_mem a h'')
      · rw [if_neg hd1] at h
        by_cases hd2 : a = '\n'
        · rw [if_pos hd2] at h
          rcases List.mem_cons.mp h with h' | h'
          · subst h'; exact Or.inl (List.mem_reverse.mp hc)
          · rcases ih SMode.inNL (some a) [] ch h' c hc with h'' | h''
            · simp at h''
            · exact Or.inr (List.mem_cons_of_mem a h'')
        · rw [if_neg hd2] at h
          exact shift (ih SMode.norm (some a) (a :: acc) ch h c hc)

lemma stripChars_sub (p : Char → Bool) (l : List Char) :
    ∀ c, c ∈ stripChars p l → c ∈ l :=
  fun c h => mem_dropWhile p l c (mem_dropTrailing p _ c h)

lemma locFiltered_ne_nil (t : String) : locFiltered t ≠ [] := by
  unfold locFiltered
  cases hf : (((sentChunks t).filter
      (fun ch => 15 < (stripChars isWS ch).length)).map (stripChars isBulletStripChar)).isEmpty with
  | true => simp [hf]
  | false =>
    simp only [hf, Bool.false_eq_true, if_false]
    intro h0
    rw [h0] at hf
    simp at hf

lemma mem_locFiltered_sub (t : String) :
    ∀ s ∈ locFiltered t, ∀ c ∈ s, c ∈ t.data := by
  intro s hs c hc
  unfold locFiltered at hs
  by_cases hf : (((sentChunks t).filter
      (fun ch => 15 < (stripChars isWS ch).length)).map (stripChars isBulletStripChar)).isEmpty = true
  · rw [if_pos hf] at hs
    simp at hs
    subst hs
    exact List.mem_of_mem_take hc
  · rw [if_neg hf] at hs
    rcases List.mem_map.mp hs with ⟨ch, hch, hstrip⟩
    have hch' : ch ∈ sentChunks t := List.mem_of_mem_filter hch
    have hcch : c ∈ ch := by
      rw [← hstrip] at hc
      exact stripChars_sub _ ch c hc
    rcases mem_splitGo t.data SMode.norm none [] ch hch' c hcch with h' | h'
    · simp at h'
    · exact h'

lemma joinNL_ne_empty (s : String) (rest : List String) (hs : s.data ≠ []) :
    joinNL (s :: rest) ≠ "" := by
  cases rest with
  | nil =>
    intro h
    rw [joinNL] at h
    exact hs (by rw [h])
  | cons t r =>
    intro h
    rw [joinNL] at h
    have := congrArg String.data h
    rw [strdata_append, strdata_append] at this
    simp at this

lemma take_ne_nil_of_pos {α : Type} (l : List α) (n : Nat) (hl : l ≠ []) (hn : 0 < n) :
    l.take n ≠ [] := by
  cases l with
  | nil => exact absurd rfl hl
  | cons a t =>
    cases n with
    | zero => exact absurd hn (by simp)
    | succ m => simp

/-- C7: on every non-empty normalized text and `max_sentences ≥ 1`,
`summarize_locally` returns a non-empty string that is a newline-join of at
most `max_sentences` lines, each starting with the bullet marker `"• "` and
at most 222 characters long. -/
theorem summarize_locally_spec (t : String) (max_sentences : Nat)
    (hnorm : normalize_text t = t) (hne : t ≠ "") (hms : 1 ≤ max_sentences) :
    summarize_locally t max_sentences ≠ "" ∧
    ∃ L : List String,
      summarize_locally t max_sentences = joinNL L ∧ L ≠ [] ∧
      L.length ≤ max_sentences ∧
      ∀ line ∈ L, (∃ r, line = "• " ++ r) ∧ line.data.length ≤ 222 ∧ '\n' ∉ line.data := by
  have hspace : ∀ c ∈ t.data, isWS c = true → c = ' ' := by
    intro c hc hws
    have := (normalize_core t).2.2.2
    rw [hnorm] at this
    exact this c hc hws
  have hln : ∀ s ∈ locFiltered t, '\n' ∉ s := by
    intro s hs hmem
    have h1 : ('\n' : Char) ∈ t.data := mem_locFiltered_sub t s hs '\n' hmem
    have h2 : ('\n' : Char) = ' ' := hspace '\n' h1 (by decide)
    exact absurd h2 (by decide)
  refine ⟨?_, ?_⟩
  · have htake : (locFiltered t).take max_sentences ≠ [] :=
      take_ne_nil_of_pos _ _ (locFiltered_ne_nil t) hms
    rcases hcons : (locFiltered t).take max_sentences with _ | ⟨s0, srest⟩
    · exact absurd hcons htake
    · show joinNL (((locFiltered t).take max_sentences).map
        (fun s => "• " ++ String.mk (s.take 220))) ≠ ""
      rw [hcons, List.map_cons]
      apply joinNL_ne_empty
      rw [strdata_append]
      simp
  · refine ⟨_, rfl, ?_, ?_, ?_⟩
    · simp only [ne_eq, List.map_eq_nil_iff]
      exact take_ne_nil_of_pos _ _ (locFiltered_ne_nil t) hms
    · rw [List.length_map]
      exact List.length_take_le _ _
    · intro line hline
      rcases List.mem_map.mp hline with ⟨s, hsmem, hs⟩
      have hsl : s ∈ locFiltered t := List.mem_of_mem_take hsmem
      refine ⟨⟨String.mk (s.take 220), hs.symm⟩, ?_, ?_⟩
      · rw [← hs, strdata_append, List.length_append]
        show ("• ".data).length + (s.take 220).length ≤ 222
        have h220 : (s.take 220).length ≤ 220 := List.length_take_le _ _
        have h2 : ("• ".data).length = 2 := by decide
        omega
      · intro hmem
        rw [← hs, strdata_append] at hmem
        rcases List.mem_append.mp hmem with h' | h'
        · exact absurd h' (by decide)
        · have : ('\n' : Char) ∈ s := List.mem_of_mem_take h'
          exact hln s hsl this

set_option maxRecDepth 10000 in
/-- Witness for `summarize_locally_spec` at a concrete normalized two-sentence
input. -/
theorem summarize_locally_spec_witness :
    summarize_locally "This is a long first sentence. And a second long sentence too!" 3 ≠ "" ∧
    ∃ L : List String,
      summarize_locally "This is a long first sentence. And a second long sentence too!" 3 = joinNL L ∧
      L ≠ [] ∧ L.length ≤ 3 ∧
      ∀ line ∈ L, (∃ r, line = "• " ++ r) ∧ line.data.length ≤ 222 ∧ '\n' ∉ line.data :=
  summarize_locally_spec "This is a long first sentence. And a second long sentence too!" 3
    (by decide) (by decide) (by decide)

/-- Method `Summarizer.summarize` from `src/telegram_digest.py`, instrumented: the
second component records the argument of each call made to the remote tier
`_summarize_remote` (modelled by the oracle `remote`, which either returns
the extracted-and-stripped completion text or fails).  `api_key` is the
`OPENAI_API_KEY` environment value; Python truthiness makes `None` and `""`
both skip the remote tier (`if self.api_key:`).  `cleaned` in the source is
`normalize_text text`. -/
def summarizeTr (api_key : Option String) (remote : String → Except String String)
    (text : String) : String × List String :=
  if normalize_text text = "" then ("(텍스트 없음)", [])
  else if api_key.getD "" = "" then (summarize_locally (normalize_text text), [])
  else
    match remote (normalize_text text) with
    | Except.ok v => (v, [normalize_text text])
    | Except.error _ => (summarize_locally (normalize_text text), [normalize_text text])

/-- Method `Summarizer.summarize`: the string actually returned to the caller. -/
def summarize (api_key : Option String) (remote : String → Except String String)
    (text : String) : String :=
  (summarizeTr api_key remote text).1

lemma summarize_locally_ne_empty (t : String) (n : Nat) (hn : 0 < n) :
    summarize_locally t n ≠ "" := by
  have htake : (locFiltered t).take n ≠ [] :=
    take_ne_nil_of_pos _ _ (locFiltered_ne_nil t) hn
  rcases hcons : (locFiltered t).take n with _ | ⟨s0, srest⟩
  · exact absurd hcons htake
  · show joinNL (((locFiltered t).take n).map
      (fun s => "• " ++ String.mk (s.take 220))) ≠ ""
    rw [hcons, List.map_cons]
    apply joinNL_ne_empty
    rw [strdata_append]
    simp

/-- C1: whenever the remote tier fails (for any reason and any configured
key), `summarize` returns exactly `summarize_locally (normalize_text text)`,
and the remote tier is attempted at most once.  `summarize` is a total
function, so no error escapes to the caller. -/
theorem summarize_remote_failure (api_key : Option String)
    (remote : String → Except String String) (text : String) (e : String)
    (h1 : normalize_text text ≠ "")
    (h2 : remote (normalize_text text) = Except.error e) :
    summarize api_key remote text = summarize_locally (normalize_text text) ∧
      (summarizeTr api_key remote text).2.length ≤ 1 := by
  have key : summarizeTr api_key remote text =
      (summarize_locally (normalize_text text),
        if api_key.getD "" = "" then [] else [normalize_text text]) := by
    unfold summarizeTr
    rw [if_neg h1]
    by_cases hk : api_key.getD "" = ""
    · rw [if_pos hk, if_pos hk]
    · rw [if_neg hk, if_neg hk, h2]
  constructor
  · show (summarizeTr api_key remote text).1 = _
    rw [key]
  · rw [key]
    by_cases hk : api_key.getD "" = "" <;> simp [hk]

/-- Witness for `summarize_remote_failure`: a failing remote on `"hello"`. -/
theorem summarize_remote_failure_witness :
    summarize (some "key") (fun _ => Except.error "boom") "hello" =
        summarize_locally (normalize_text "hello") ∧
      (summarizeTr (some "key") (fun _ => Except.error "boom") "hello").2.length ≤ 1 :=
  summarize_remote_failure (some "key") (fun _ => Except.error "boom") "hello" "boom"
    (by decide) rfl

/-- C2: when the normalized input is empty (in particular for `""` and
whitespace-only strings), `summarize` returns the fixed empty-text sentinel
and the remote tier is never called. -/
theorem summarize_empty_input (api_key : Option String)
    (remote : String → Except String String) (text : String)
    (h : normalize_text text = "") :
    summarize api_key remote text = "(텍스트 없음)" ∧
      (summarizeTr api_key remote text).2 = [] := by
  have key : summarizeTr api_key remote text = ("(텍스트 없음)", []) := by
    unfold summarizeTr
    rw [if_pos h]
  exact ⟨congrArg Prod.fst key, congrArg Prod.snd key⟩

/-- Witness for `summarize_empty_input`: a whitespace-only input with a key
configured and a remote that would succeed, yet no call is made. -/
theorem summarize_empty_input_witness :
    normalize_text " \t\n " = "" ∧
      summarize (some "key") (fun s => Except.ok s) " \t\n " = "(텍스트 없음)" ∧
      (summarizeTr (some "key") (fun s => Except.ok s) " \t\n ").2 = [] := by
  have h : normalize_text " \t\n " = "" := by decide
  obtain ⟨h1, h2⟩ := summarize_empty_input (some "key") (fun s => Except.ok s) " \t\n " h
  exact ⟨h, h1, h2⟩

/-- C8: when a (truthy) key is configured and the remote tier succeeds with
value `V` on a text whose normalization is non-empty, `summarize` returns
exactly `V`, with no further transformation or validation. -/
theorem summarize_remote_success (k : String) (remote : String → Except String String)
    (text V : String) (hk : k ≠ "")
    (h1 : normalize_text text ≠ "")
    (h2 : remote (normalize_text text) = Except.ok V) :
    summarize (some k) remote text = V := by
  show (summarizeTr (some k) remote text).1 = V
  unfold summarizeTr
  rw [if_neg h1, if_neg (by simpa using hk), h2]

/-- Witness for `summarize_remote_success`: a mocked remote returning a value
that the local summarizer could never produce. -/
theorem summarize_remote_success_witness :
    summarize (some "key") (fun _ => Except.ok "VERBATIM <remote>") "hello" =
      "VERBATIM <remote>" :=
  summarize_remote_success "key" (fun _ => Except.ok "VERBATIM <remote>")
    "hello" "VERBATIM <remote>" (by decide) (by decide) rfl

/-- C5 (amended): the summary produced by `summarize` is non-empty on every
path except a successful remote call returning the empty string: whenever
every successful remote answer is non-empty (in particular whenever the
remote fails or no key is configured), the result is non-empty. -/
theorem summarize_nonempty (api_key : Option String)
    (remote : String → Except String String) (text : String)
    (h : ∀ V, remote (normalize_text text) = Except.ok V → V ≠ "") :
    summarize api_key remote text ≠ "" := by
  show (summarizeTr api_key remote text).1 ≠ ""
  unfold summarizeTr
  by_cases h1 : normalize_text text = ""
  · rw [if_pos h1]
    decide
  · rw [if_neg h1]
    by_cases hk : api_key.getD "" = ""
    · rw [if_pos hk]
      exact summarize_locally_ne_empty _ 3 (by decide)
    · rw [if_neg hk]
      cases hrem : remote (normalize_text text) with
      | ok V => exact h V hrem
      | error e => exact summarize_locally_ne_empty _ 3 (by decide)

/-- Witness for `summarize_nonempty`: local-only mode on `"hi"`. -/
theorem summarize_nonempty_witness :
    summarize none (fun _ => Except.error "offline") "hi" ≠ "" :=
  summarize_nonempty none (fun _ => Except.error "offline") "hi"
    (fun V h => Except.noConfusion h)

/-- Counterexample to C5 as stated: when the remote tier succeeds with the
empty string (the adapter strips the completion, so an all-whitespace remote
answer becomes `""`), the produced summary is empty. -/
theorem summarize_empty_remote_cex :
    summarize (some "key") (fun _ => Except.ok "") "hello" = "" := by decide

/-- Python's `html.escape(s)` (quote=True): each of `& < > " '` is replaced
by its entity, all other characters are kept. -/
def escChar (c : Char) : List Char :=
  if c = '&' then "&amp;".data
  else if c = '<' then "&lt;".data
  else if c = '>' then "&gt;".data
  else if c = '"' then "&quot;".data
  else if c = Char.ofNat 39 then "&#x27;".data
  else [c]

def html_escape (s : String) : String :=
  String.mk ((s.data.map escChar).flatten)

/-- The `DigestItem` dataclass. -/
structure DigestItem where
  channel_title : String
  channel_id : Int
  message_id : Nat
  date : String
  text : String
  summary : String
  message_link : String
deriving DecidableEq

/-- One step of filling the `defaultdict(list)` keyed by `channel_title`:
append the item to its title's bucket, creating the bucket at the end on
first sight (Python dicts preserve insertion order). -/
def addItem (acc : List (String × List DigestItem)) (it : DigestItem) :
    List (String × List DigestItem) :=
  if acc.any (fun p => p.1 == it.channel_title) then
    acc.map (fun p => if p.1 == it.channel_title then (p.1, p.2 ++ [it]) else p)
  else acc ++ [(it.channel_title, [it])]

/-- The dict `grouped` in `build_digest_message`: the loop
`for item in items[:max_items]: grouped[item.channel_title].append(item)`,
as an insertion-ordered association list. -/
def groupByTitle (items : List DigestItem) : List (String × List DigestItem) :=
  items.foldl addItem []

/-- The lines appended for one group: the group heading, then for each item
(`enumerate(channel_items, start=1)`) the numbered escaped summary and the
link line (note: the link is interpolated raw, not escaped). -/
def digest_group_lines (p : String × List DigestItem) : List String :=
  ("\n📌 <b>" ++ html_escape p.1 ++ "</b>") ::
    ((List.enumFrom 1 p.2).map (fun q =>
      [Nat.repr q.1 ++ ") " ++ html_escape q.2.summary,
       "🔗 <a href=\"" ++ q.2.message_link ++ "\">원문 링크</a>"])).flatten

/-- The full `lines` list of `build_digest_message` before the optional
trailing note: header plus all group lines over the capped subset. -/
def digest_body_lines (items : List DigestItem) (max_items : Nat) : List String :=
  "🧾 <b>안 읽은 채널 요약</b>" ::
    ((groupByTitle (items.take max_items)).map digest_group_lines).flatten

/-- The trailing note `f"\n…외 {len(items)-max_items}건은 HTML/JSON 파일을 확인하세요."`. -/
def omitted_note (n : Nat) : String :=
  "\n…외 " ++ Nat.repr n ++ "건은 HTML/JSON 파일을 확인하세요."

/-- Function `build_digest_message` from `src/telegram_digest.py`. -/
def build_digest_message (items : List DigestItem) (max_items : Nat := 20) : String :=
  if items.isEmpty then "📭 안 읽은 채널 메시지가 없습니다."
  else
    joinNL (digest_body_lines items max_items ++
      (if max_items < items.length then [omitted_note (items.length - max_items)] else []))

/-- C4: for a list longer than `max_items`, the rendered message is the body
over the capped subset followed by the trailing note naming exactly
`items.length - max_items` omitted items; for non-empty lists of length at
most `max_items` no note is appended; and the body only ever renders the
first `max_items` items. -/
theorem build_digest_cap_note (items : List DigestItem) (max_items : Nat) :
    (max_items < items.length →
      build_digest_message items max_items =
        joinNL (digest_body_lines items max_items ++
          [omitted_note (items.length - max_items)])) ∧
    (items ≠ [] → items.length ≤ max_items →
      build_digest_message items max_items = joinNL (digest_body_lines items max_items)) ∧
    digest_body_lines items max_items = digest_body_lines (items.take max_items) max_items := by
  refine ⟨?_, ?_, ?_⟩
  · intro hlt
    have hne : items ≠ [] := by
      intro h0
      rw [h0] at hlt
      simp at hlt
    have hie : items.isEmpty = false := by
      cases items with
      | nil => exact absurd rfl hne
      | cons a t => rfl
    unfold build_digest_message
    rw [if_neg (by simp [hie]), if_pos hlt]
  · intro hne hle
    have hie : items.isEmpty = false := by
      cases items with
      | nil => exact absurd rfl hne
      | cons a t => rfl
    unfold build_digest_message
    rw [if_neg (by simp [hie]), if_neg (by omega), List.append_nil]
  · simp [digest_body_lines, List.take_take]

/-- Witness for `build_digest_cap_note`: two items, caps 1 and 5. -/
theorem build_digest_cap_note_witness :
    build_digest_message [⟨"A", 1, 1, "", "", "sa", "la"⟩, ⟨"B", 2, 2, "", "", "sb", "lb"⟩] 1 =
        joinNL (digest_body_lines
          [⟨"A", 1, 1, "", "", "sa", "la"⟩, ⟨"B", 2, 2, "", "", "sb", "lb"⟩] 1 ++
          [omitted_note 1]) ∧
      build_digest_message [⟨"A", 1, 1, "", "", "sa", "la"⟩, ⟨"B", 2, 2, "", "", "sb", "lb"⟩] 5 =
        joinNL (digest_body_lines
          [⟨"A", 1, 1, "", "", "sa", "la"⟩, ⟨"B", 2, 2, "", "", "sb", "lb"⟩] 5) :=
  ⟨by
    have h := (build_digest_cap_note
      [⟨"A", 1, 1, "", "", "sa", "la"⟩, ⟨"B", 2, 2, "", "", "sb", "lb"⟩] 1).1 (by decide)
    simpa using h,
   (build_digest_cap_note
      [⟨"A", 1, 1, "", "", "sa", "la"⟩, ⟨"B", 2, 2, "", "", "sb", "lb"⟩] 5).2.1
      (by simp) (by decide)⟩

/-- The fold step for titles in first-seen order. -/
def firstSeenAux (ks : List String) (items : List DigestItem) : List String :=
  items.foldl (fun ks it => if it.channel_title ∈ ks then ks else ks ++ [it.channel_title]) ks

/-- The distinct channel titles in first-seen order of the incoming item
sequence — the spec's description of the group-heading order, to be compared
with the keys the source's insertion-ordered dict produces. -/
def firstSeenTitles (items : List DigestItem) : List String :=
  firstSeenAux [] items

lemma addItem_keys (acc : List (String × List DigestItem)) (it : DigestItem) :
    (addItem acc it).map Prod.fst =
      if it.channel_title ∈ acc.map Prod.fst then acc.map Prod.fst
      else acc.map Prod.fst ++ [it.channel_title] := by
  unfold addItem
  by_cases h : acc.any (fun p => p.1 == it.channel_title) = true
  · rw [if_pos h]
    have hmem : it.channel_title ∈ acc.map Prod.fst := by
      rcases List.any_eq_true.mp h with ⟨p, hp, hpe⟩
      have hpt : p.1 = it.channel_title := by simpa using hpe
      exact hpt ▸ List.mem_map_of_mem Prod.fst hp
    rw [if_pos hmem, List.map_map]
    apply List.map_congr_left
    intro p _
    by_cases hpt : p.1 = it.channel_title
    · simp [hpt]
    · simp [hpt]
  · rw [if_neg h]
    have hnm : it.channel_title ∉ acc.map Prod.fst := by
      intro hmem
      rcases List.mem_map.mp hmem with ⟨p, hp, hpe⟩
      exact h (List.any_eq_true.mpr ⟨p, hp, by simp [hpe]⟩)
    rw [if_neg hnm, List.map_append]
    rfl

lemma foldl_addItem_keys (items : List DigestItem) :
    ∀ acc, (items.foldl addItem acc).map Prod.fst = firstSeenAux (acc.map Prod.fst) items := by
  induction items with
  | nil => intro acc; rfl
  | cons it rest ih =>
    intro acc
    show ((rest.foldl addItem (addItem acc it)).map Prod.fst) = _
    rw [ih (addItem acc it), addItem_keys]
    rfl

lemma foldl_addItem_filter (items : List DigestItem) :
    ∀ acc p, p ∈ items.foldl addItem acc →
      (∃ l0, (p.1, l0) ∈ acc ∧
        p.2 = l0 ++ items.filter (fun it => it.channel_title == p.1)) ∨
      ((∀ q ∈ acc, q.1 ≠ p.1) ∧
        p.2 = items.filter (fun it => it.channel_title == p.1)) := by
  induction items with
  | nil =>
    intro acc p hp
    left
    exact ⟨p.2, hp, by simp⟩
  | cons it rest ih =>
    intro acc p hp
    rw [List.foldl_cons] at hp
    rcases ih (addItem acc it) p hp with ⟨l0, hl0, hp2⟩ | ⟨hnone, hp2⟩
    · unfold addItem at hl0
      by_cases hany : acc.any (fun q => q.1 == it.channel_title) = true
      · rw [if_pos hany] at hl0
        rcases List.mem_map.mp hl0 with ⟨q, hq, hqe⟩
        by_cases hqt : q.1 == it.channel_title
        · rw [if_pos hqt] at hqe
          rw [Prod.mk.injEq] at hqe
          obtain ⟨hq1, hq2⟩ := hqe
          have htitle : it.channel_title = p.1 := by
            have hq1' : q.1 = it.channel_title := by simpa using hqt
            rw [← hq1', hq1]
          left
          refine ⟨q.2, ?_, ?_⟩
          · rw [← hq1]
            exact hq
          · rw [hp2, ← hq2, List.filter_cons]
            simp [htitle]
        · rw [if_neg hqt] at hqe
          have hq1 : q.1 = p.1 := by rw [hqe]
          have htne : it.channel_title ≠ p.1 := by
            intro he
            exact hqt (beq_iff_eq.mpr (by rw [hq1, ← he]))
          left
          refine ⟨l0, ?_, ?_⟩
          · rw [← hqe]
            exact hq
          · rw [hp2, List.filter_cons]
            simp [htne]
      · rw [if_neg hany] at hl0
        rcases List.mem_append.mp hl0 with hin | hsing
        · have htne : it.channel_title ≠ p.1 := by
            intro he
            exact hany (List.any_eq_true.mpr ⟨(p.1, l0), hin, by simp [he]⟩)
          left
          exact ⟨l0, hin, by rw [hp2, List.filter_cons]; simp [htne]⟩
        · simp only [List.mem_singleton] at hsing
          rw [Prod.mk.injEq] at hsing
          obtain ⟨h1, h2⟩ := hsing
          right
          constructor
          · intro q hq he
            exact hany (List.any_eq_true.mpr ⟨q, hq, by simp [he, h1]⟩)
          · rw [hp2, h2, List.filter_cons]
            simp [h1.symm]
    · have hnacc : ∀ q ∈ acc, q.1 ≠ p.1 := by
        intro q hq
        unfold addItem at hnone
        by_cases hany : acc.any (fun r => r.1 == it.channel_title) = true
        · rw [if_pos hany] at hnone
          have hres := hnone (if q.1 == it.channel_title then (q.1, q.2 ++ [it]) else q)
            (List.mem_map_of_mem _ hq)
          by_cases hqt : q.1 == it.channel_title
          · rw [if_pos hqt] at hres
            simpa using hres
          · rw [if_neg hqt] at hres
            exact hres
        · rw [if_neg hany] at hnone
          exact hnone q (List.mem_append_left _ hq)
      have htne : it.channel_title ≠ p.1 := by
        unfold addItem at hnone
        by_cases hany : acc.any (fun r => r.1 == it.channel_title) = true
        · rcases List.any_eq_true.mp hany with ⟨r, hr, hre⟩
          have hr1 : r.1 = it.channel_title := by simpa using hre
          intro he
          exact hnacc r hr (by rw [hr1, he])
        · rw [if_neg hany] at hnone
          have hres := hnone (it.channel_title, [it]) (List.mem_append_right _ (by simp))
          simpa using hres
      right
      exact ⟨hnacc, by rw [hp2, List.filter_cons]; simp [htne]⟩

lemma subset_firstSeenAux (items : List DigestItem) :
    ∀ ks, ks ⊆ firstSeenAux ks items := by
  induction items with
  | nil => intro ks x hx; exact hx
  | cons it rest ih =>
    intro ks x hx
    show x ∈ firstSeenAux (if it.channel_title ∈ ks then ks else ks ++ [it.channel_title]) rest
    refine ih _ ?_
    by_cases hmem : it.channel_title ∈ ks
    · rw [if_pos hmem]; exact hx
    · rw [if_neg hmem]; exact List.mem_append_left _ hx

lemma title_mem_firstSeenAux (items : List DigestItem) :
    ∀ ks it, it ∈ items → it.channel_title ∈ firstSeenAux ks items := by
  induction items with
  | nil => intro ks it h; simp at h
  | cons a rest ih =>
    intro ks it h
    rcases List.mem_cons.mp h with h' | h'
    · subst h'
      show it.channel_title ∈
        firstSeenAux (if it.channel_title ∈ ks then ks else ks ++ [it.channel_title]) rest
      apply subset_firstSeenAux
      by_cases hmem : it.channel_title ∈ ks
      · rw [if_pos hmem]; exact hmem
      · rw [if_neg hmem]; exact List.mem_append_right _ (by simp)
    · exact ih _ it h'

/-- C9: `build_digest_message` groups the capped subset by `channel_title`:
the group keys are the distinct titles in first-seen order of the incoming
sequence, every capped item's title has a group (so two channel ids sharing
a title fall under one heading), and each group holds exactly the capped
items bearing its title, in incoming relative order. -/
theorem build_digest_grouping (items : List DigestItem) (max_items : Nat) :
    (groupByTitle (items.take max_items)).map Prod.fst =
        firstSeenTitles (items.take max_items) ∧
      (∀ p ∈ groupByTitle (items.take max_items),
        p.2 = (items.take max_items).filter (fun it => it.channel_title == p.1)) ∧
      (∀ it ∈ items.take max_items,
        it.channel_title ∈ (groupByTitle (items.take max_items)).map Prod.fst) := by
  refine ⟨?_, ?_, ?_⟩
  · show (List.foldl addItem [] (items.take max_items)).map Prod.fst = _
    rw [foldl_addItem_keys]
    rfl
  · intro p hp
    rcases foldl_addItem_filter (items.take max_items) [] p hp with ⟨l0, hl0, _⟩ | ⟨_, h2⟩
    · simp at hl0
    · exact h2
  · intro it hit
    show it.channel_title ∈ (List.foldl addItem [] (items.take max_items)).map Prod.fst
    rw [foldl_addItem_keys]
    exact title_mem_firstSeenAux _ _ it hit

/-- Witness for `build_digest_grouping`: titles `A, B, A` across three
distinct channel ids collapse into groups `A` (items 1 and 3) and `B`. -/
theorem build_digest_grouping_witness :
    ("A", [(⟨"A", 1, 1, "", "", "s1", "l1"⟩ : DigestItem), ⟨"A", 3, 3, "", "", "s3", "l3"⟩]).2 =
      (([⟨"A", 1, 1, "", "", "s1", "l1"⟩, ⟨"B", 2, 2, "", "", "s2", "l2"⟩,
         ⟨"A", 3, 3, "", "", "s3", "l3"⟩] : List DigestItem).take 20).filter
        (fun it => it.channel_title == ("A",
          [(⟨"A", 1, 1, "", "", "s1", "l1"⟩ : DigestItem), ⟨"A", 3, 3, "", "", "s3", "l3"⟩]).1) :=
  (build_digest_grouping
    [⟨"A", 1, 1, "", "", "s1", "l1"⟩, ⟨"B", 2, 2, "", "", "s2", "l2"⟩,
     ⟨"A", 3, 3, "", "", "s3", "l3"⟩] 20).2.1
    ("A", [⟨"A", 1, 1, "", "", "s1", "l1"⟩, ⟨"A", 3, 3, "", "", "s3", "l3"⟩]) (by decide)

lemma mem_enumFrom_of_mem {α : Type} (l : List α) :
    ∀ (n : Nat) (x : α), x ∈ l → ∃ i, (i, x) ∈ List.enumFrom n l := by
  induction l with
  | nil => intro n x h; simp at h
  | cons a t ih =>
    intro n x h
    rcases List.mem_cons.mp h with h' | h'
    · exact ⟨n, by rw [h']; show (n, a) ∈ (n, a) :: List.enumFrom (n + 1) t; simp⟩
    · rcases ih (n + 1) x h' with ⟨i, hi⟩
      refine ⟨i, ?_⟩
      show (i, x) ∈ (n, a) :: List.enumFrom (n + 1) t
      exact List.mem_cons_of_mem _ hi

/-- C3 (amended): in the notification body every group heading and every
item summary appears HTML-escaped, while every item link is interpolated
raw (unescaped) into its line. -/
theorem digest_lines_escaping (items : List DigestItem) (max_items : Nat) :
    ∀ p ∈ groupByTitle (items.take max_items),
      ("\n📌 <b>" ++ html_escape p.1 ++ "</b>") ∈ digest_body_lines items max_items ∧
      ∀ it ∈ p.2,
        (∃ i : Nat, (Nat.repr i ++ ") " ++ html_escape it.summary) ∈
          digest_body_lines items max_items) ∧
        ("🔗 <a href=\"" ++ it.message_link ++ "\">원문 링크</a>") ∈
          digest_body_lines items max_items := by
  intro p hp
  have hgl : digest_group_lines p ∈ (groupByTitle (items.take max_items)).map digest_group_lines :=
    List.mem_map_of_mem _ hp
  have hsub : ∀ line ∈ digest_group_lines p, line ∈ digest_body_lines items max_items := by
    intro line hline
    unfold digest_body_lines
    exact List.mem_cons_of_mem _ (List.mem_flatten.mpr ⟨digest_group_lines p, hgl, hline⟩)
  constructor
  · apply hsub
    unfold digest_group_lines
    exact List.mem_cons_self _ _
  · intro it hit
    rcases mem_enumFrom_of_mem p.2 1 it hit with ⟨i, hi⟩
    have hpair : [Nat.repr i ++ ") " ++ html_escape it.summary,
        "🔗 <a href=\"" ++ it.message_link ++ "\">원문 링크</a>"] ∈
        (List.enumFrom 1 p.2).map (fun q =>
          [Nat.repr q.1 ++ ") " ++ html_escape q.2.summary,
           "🔗 <a href=\"" ++ q.2.message_link ++ "\">원문 링크</a>"]) :=
      List.mem_map_of_mem _ hi
    constructor
    · refine ⟨i, hsub _ ?_⟩
      unfold digest_group_lines
      exact List.mem_cons_of_mem _ (List.mem_flatten.mpr ⟨_, hpair, by simp⟩)
    · apply hsub
      unfold digest_group_lines
      exact List.mem_cons_of_mem _ (List.mem_flatten.mpr ⟨_, hpair, by simp⟩)

/-- The item used to exhibit the unescaped link: its `message_link` carries
raw markup. -/
def cexItem : DigestItem := ⟨"c", 7, 9, "d", "t", "s", "<x>"⟩

/-- Witness for `digest_lines_escaping` at the singleton list `[cexItem]`. -/
theorem digest_lines_escaping_witness :
    ("\n📌 <b>" ++ html_escape "c" ++ "</b>") ∈ digest_body_lines [cexItem] 20 ∧
      (∃ i : Nat, (Nat.repr i ++ ") " ++ html_escape cexItem.summary) ∈
        digest_body_lines [cexItem] 20) ∧
      ("🔗 <a href=\"" ++ cexItem.message_link ++ "\">원문 링크</a>") ∈
        digest_body_lines [cexItem] 20 :=
  ⟨(digest_lines_escaping [cexItem] 20 ("c", [cexItem]) (by decide)).1,
   (digest_lines_escaping [cexItem] 20 ("c", [cexItem]) (by decide)).2 cexItem (by decide)⟩

/-- Does `pat` occur at the start of the list? -/
def startsL : List Char → List Char → Bool
  | [], _ => true
  | _ :: _, [] => false
  | a :: as, b :: bs => a == b && startsL as bs

/-- Does `pat` occur as a contiguous substring? -/
def hasSub (pat : List Char) : List Char → Bool
  | [] => startsL pat []
  | l@(_ :: t) => startsL pat l || hasSub pat t

set_option maxRecDepth 100000 in
/-- Counterexample to C3 as stated: for an item whose `message_link` is
`"<x>"`, the rendered notification contains the raw `<x>` and does not
contain its escaped form `&lt;x&gt;` — the link is not HTML-escaped. -/
theorem digest_link_unescaped_cex :
    hasSub "<x>".data (build_digest_message [cexItem] 20).data = true ∧
      hasSub (html_escape "<x>").data (build_digest_message [cexItem] 20).data = false := by
  constructor <;> decide

/-- A Telethon `Channel` as far as `build_message_link` inspects it. -/
structure TgChannel where
  username : Option String
  id : Int
deriving DecidableEq

/-- Function `build_message_link` from the source.  `if channel.username:` is Python
truthiness, so an absent username and the empty string both take the
private/supergroup fallback. -/
def build_message_link (c : TgChannel) (message_id : Nat) : String :=
  if c.username.getD "" ≠ "" then
    "https://t.me/" ++ c.username.getD "" ++ "/" ++ Nat.repr message_id
  else
    "https://t.me/c/" ++
      (if (Nat.repr c.id.natAbs).take 3 = "100"
       then (Nat.repr c.id.natAbs).drop 3 else Nat.repr c.id.natAbs) ++
      "/" ++ Nat.repr message_id

/-- C10: with a (non-empty) username the link is
`https://t.me/<username>/<message_id>`; without one it is
`https://t.me/c/<internal>/<message_id>` where `<internal>` is the decimal
form of the absolute channel id with a leading `"100"` removed whenever the
decimal form starts with `"100"` — whether or not that `100` is a
supergroup marker. -/
theorem build_message_link_spec (c : TgChannel) (mid : Nat) :
    (∀ u, c.username = some u → u ≠ "" →
      build_message_link c mid = "https://t.me/" ++ u ++ "/" ++ Nat.repr mid) ∧
    ((c.username = none ∨ c.username = some "") →
      build_message_link c mid =
        "https://t.me/c/" ++
          (if (Nat.repr c.id.natAbs).take 3 = "100"
           then (Nat.repr c.id.natAbs).drop 3 else Nat.repr c.id.natAbs) ++
          "/" ++ Nat.repr mid) := by
  constructor
  · intro u hu hne
    unfold build_message_link
    rw [hu]
    simp [hne]
  · intro h
    rcases h with h | h <;>
      (unfold build_message_link; rw [h]; simp)

/-- Witness for `build_message_link_spec`: a public channel, a supergroup
id, and a small id that happens to start with `100`. -/
theorem build_message_link_spec_witness :
    build_message_link ⟨some "chan", 5⟩ 42 = "https://t.me/chan/42" ∧
      build_message_link ⟨none, -1001234567890⟩ 55 = "https://t.me/c/1234567890/55" ∧
      build_message_link ⟨none, 1007⟩ 3 = "https://t.me/c/7/3" := by
  refine ⟨?_, ?_, ?_⟩
  · rw [(build_message_link_spec ⟨some "chan", 5⟩ 42).1 "chan" rfl (by decide)]
    decide
  · rw [(build_message_link_spec ⟨none, -1001234567890⟩ 55).2 (Or.inl rfl)]
    decide
  · rw [(build_message_link_spec ⟨none, 1007⟩ 3).2 (Or.inl rfl)]
    decide

end TelegramDigest
